import Mathlib

/-!
# Capacity Aggregation Engine — verification of `cap_track.py`

A shallow embedding of the pure data transformations of `src/cap_track.py`
(the Capacity Aggregation Engine): availability classification, the
Sunday–Friday window resolver, slot-duration derivation, per-person and
cross-person project-breakdown aggregation, deadline deduplication and
flattening, deadline urgency bucketing, and the breakdown formatter.

Conventions of the embedding:
* fractional hour values (Python floats) are modelled as `ℚ`;
* calendar dates are modelled as integer day ordinals; `weekday d = d % 7`
  mirrors Python's `date.weekday()` (Monday = 0 … Sunday = 6), which is
  compatible with day arithmetic since ordinal 1 (0001-01-01) is a Monday;
* timestamps are integer seconds; `(a - b).days` of Python `timedelta`
  floors, hence `Int.fdiv` by 86400;
* Python dicts are modelled as association lists (insertion order, unique
  keys by construction of the update operations); Python sets of strings
  are modelled as duplicate-free lists built by a membership-checking
  insert;
* the fallible external parser `pd.to_datetime` is an explicit
  `String → Option Int` parameter, and the timezone conversion plus
  `strftime` rendering applied on success is an explicit `Int → String`
  parameter.
-/

/-- `get_availability_guess_coded` (cap_track.py lines 401–413): from a
designer name and the timesheet/scheduled hour totals, compute the remaining
available hours (clamped at 0) and the availability label. -/
def get_availability_guess_coded (designer_name : String)
    (timesheet_hours scheduled_hours : ℚ) : ℚ × String :=
  let weekly_hours : ℚ := 40
  let available_hours := weekly_hours - (timesheet_hours + scheduled_hours)
  let available_hours := if available_hours < 0 then 0 else available_hours
  let guess :=
    if available_hours ≥ 15 then "Fully Available"
    else if available_hours > 0 then "Partially Available"
    else "Not Available"
  (available_hours, guess)

/-- `get_sunday_friday_range` (cap_track.py lines 102–110), with the current
date passed explicitly as an integer day ordinal.  `weekday today = today % 7`
is Python's `date.weekday()` convention (Monday = 0, …, Sunday = 6). -/
def weekday (d : ℤ) : ℤ := d % 7

/-- The body of `get_sunday_friday_range`: `diff = weekday(today) - 6`,
bumped by 7 when negative; start = today - diff; end = start + 5 days. -/
def get_sunday_friday_range (today : ℤ) : ℤ × ℤ :=
  let diff := weekday today - 6
  let diff := if diff < 0 then diff + 7 else diff
  let start_of_week := today - diff
  let end_of_week := start_of_week + 5
  (start_of_week, end_of_week)

/-- The slot-duration derivation of `get_all_scheduled_data`
(cap_track.py lines 195–197): `(end - start).total_seconds() / 3600.0`,
with timestamps in seconds modelled as rationals.  No clamping happens. -/
def slot_hours (start_ts end_ts : ℚ) : ℚ :=
  (end_ts - start_ts) / 3600

/-- Python's `(d - now).days`: the whole-day difference of two timestamps in
seconds, floored (a `timedelta`'s `.days` field rounds toward minus
infinity). -/
def deltaDays (ts now : ℤ) : ℤ := Int.fdiv (ts - now) 86400

/-- The three urgency buckets of `create_deadline_pie_chart`
(red = next week, yellow = next two weeks, green = beyond). -/
inductive Bucket
  | urgent
  | soon
  | later
  deriving DecidableEq, Repr

/-- The per-deadline classification inside the loop of
`create_deadline_pie_chart` (cap_track.py lines 427–439): parse the string
(skip on failure), skip past deadlines, otherwise pick the bucket by the
7 / 14 day boundaries on `delta = (d - now).days`. -/
def bucketOf (parse : String → Option ℤ) (now : ℤ) (d_str : String) :
    Option Bucket :=
  match parse d_str with
  | none => none
  | some d =>
    let delta := deltaDays d now
    if delta < 0 then none
    else if delta < 7 then some Bucket.urgent
    else if delta < 14 then some Bucket.soon
    else some Bucket.later

/-- The `(red, yellow, green)` counters accumulated by
`create_deadline_pie_chart` over a deadline list. -/
def countBuckets (parse : String → Option ℤ) (now : ℤ) :
    List String → ℕ × ℕ × ℕ
  | [] => (0, 0, 0)
  | d_str :: rest =>
    let c := countBuckets parse now rest
    match bucketOf parse now d_str with
    | none => c
    | some Bucket.urgent => (c.1 + 1, c.2.1, c.2.2)
    | some Bucket.soon => (c.1, c.2.1 + 1, c.2.2)
    | some Bucket.later => (c.1, c.2.1, c.2.2 + 1)

/-- The urgency filter of `get_deadlines_for_week` (cap_track.py lines
524–529): parse the stored deadline string (skip on failure) and admit the
record when `0 <= delta_days < 7`. -/
def weekAdmits (parse : String → Option ℤ) (now : ℤ) (d_str : String) :
    Bool :=
  match parse d_str with
  | none => false
  | some d => decide (0 ≤ deltaDays d now) && decide (deltaDays d now < 7)

/-- The due-date storage derivation of `get_parent_task_due_dates`
(cap_track.py lines 294–301): on parse success the timezone-normalised
rendering `fmt` of the parsed value is stored; on parse failure the raw
string representation is stored unchanged. -/
def task_due_string (parse : String → Option ℤ) (fmt : ℤ → String)
    (raw_date : String) : String :=
  match parse raw_date with
  | some dt => fmt dt
  | none => raw_date

/-- Python `set.add` on a set modelled as a duplicate-free list: a member is
left alone, a new element is appended. -/
def insertDedup (s : List String) (x : String) : List String :=
  if x ∈ s then s else s ++ [x]

/-- The per-person deadline dictionary built by `get_parent_task_due_dates`
(cap_track.py lines 303–310): fold over the `(emp_id, due_date_str)` pairs,
adding each due-date string to that person's set. -/
def buildDeadlines (pairs : List (ℕ × String)) : ℕ → List String :=
  pairs.foldl
    (fun f p => fun i => if i = p.1 then insertDedup (f i) p.2 else f i)
    (fun _ => [])

/-- The flat aggregated deadline collection of `main` (cap_track.py lines
828–830): `aggregated_deadlines.extend(parent_dd_dict.get(emp_id, set()))`
over the designer ids in order. -/
def flattenDeadlines (ids : List ℕ) (dd : ℕ → List String) : List String :=
  ids.foldl (fun acc i => acc ++ dd i) []

/-- One person's project breakdown `{project_name: {type_key: count}}`,
as built by `get_project_breakdown`: an association list from project name
to an association list from category label (the sentinel `"No Type"` stands
for a missing category) to an occurrence count. -/
abbrev PersonBreakdown := List (String × List (String × ℕ))

/-- The cross-person aggregate `{project_type: {project_name: count}}`. -/
abbrev Aggregated := List (String × List (String × ℕ))

/-- `aggregated[key][project_name] = aggregated[key].get(project_name, 0) + count`
on an association list: bump the project's count in place, appending a new
entry when the project is absent. -/
def bumpProj (m : List (String × ℕ)) (proj : String) (cnt : ℕ) :
    List (String × ℕ) :=
  match m with
  | [] => [(proj, cnt)]
  | (p, c) :: rest =>
    if p = proj then (p, c + cnt) :: rest
    else (p, c) :: bumpProj rest proj cnt

/-- The two-level dictionary update of `aggregate_project_breakdowns`
(cap_track.py lines 395–398): ensure the category key exists, then bump the
project's count under it. -/
def bumpCat (agg : Aggregated) (cat proj : String) (cnt : ℕ) : Aggregated :=
  match agg with
  | [] => [(cat, [(proj, cnt)])]
  | (k, m) :: rest =>
    if k = cat then (k, bumpProj m proj cnt) :: rest
    else (k, m) :: bumpCat rest cat proj cnt

/-- The innermost loop of `aggregate_project_breakdowns`: fold one project's
`{type: count}` entries into the aggregate. -/
def aggTypes (agg : Aggregated) (proj : String) :
    List (String × ℕ) → Aggregated
  | [] => agg
  | (ty, c) :: rest => aggTypes (bumpCat agg ty proj c) proj rest

/-- The middle loop of `aggregate_project_breakdowns`: fold one person's
projects into the aggregate. -/
def aggProjects (agg : Aggregated) : PersonBreakdown → Aggregated
  | [] => agg
  | (proj, ts) :: rest => aggProjects (aggTypes agg proj ts) rest

/-- The outer loop of `aggregate_project_breakdowns` over all persons,
threading the aggregate. -/
def aggAll (agg : Aggregated) : List (ℕ × PersonBreakdown) → Aggregated
  | [] => agg
  | (_, pb) :: rest => aggAll (aggProjects agg pb) rest

/-- `aggregate_project_breakdowns` (cap_track.py lines 384–399): merge all
per-person breakdowns into one aggregate grouped by category then project.
(The input's category labels are the strings produced by
`get_project_breakdown`, where a missing category already became the
sentinel `"No Type"`, so `key = project_type` here.) -/
def aggregate_project_breakdowns (input : List (ℕ × PersonBreakdown)) :
    Aggregated :=
  aggAll [] input

/-- Sum of the counts of one `{key: count}` association list. -/
def sumCounts (m : List (String × ℕ)) : ℕ := (m.map Prod.snd).sum

/-- Sum of all counts of one person's breakdown. -/
def sumPerson (pb : PersonBreakdown) : ℕ :=
  (pb.map (fun pr => sumCounts pr.2)).sum

/-- Sum of all counts of the whole per-person input. -/
def sumInput (input : List (ℕ × PersonBreakdown)) : ℕ :=
  (input.map (fun pr => sumPerson pr.2)).sum

/-- Sum of all counts of the aggregate. -/
def sumAgg (agg : Aggregated) : ℕ :=
  (agg.map (fun pr => sumCounts pr.2)).sum

/-- The per-project rendering inside
`format_project_breakdown_for_employee` (cap_track.py lines 372–377): a
project whose types dictionary is exactly `{"No Type": 1}` renders as the
bare project name; otherwise `"name (N TypeA, M TypeB, ...)"`. -/
def projectString (project_name : String) (types : List (String × ℕ)) :
    String :=
  if types.length = 1 ∧ (types.map Prod.snd).head? = some 1 ∧
      types.any (fun tc => tc.1 = "No Type") then
    project_name
  else
    project_name ++ " (" ++
      String.intercalate ", "
        (types.map (fun tc => toString tc.2 ++ " " ++ tc.1)) ++ ")"

/-- `format_project_breakdown_for_employee` (cap_track.py lines 368–382):
total count plus the summary string, the project pieces joined with
`", "` and a final `" and "` when there are at least two. -/
def format_project_breakdown_for_employee (bd : PersonBreakdown) :
    ℕ × String :=
  let total_count := (bd.map (fun pr => (pr.2.map Prod.snd).sum)).sum
  let project_strings := bd.map (fun pr => projectString pr.1 pr.2)
  let final_projects_str :=
    if project_strings.length > 1 then
      String.intercalate ", " project_strings.dropLast ++ " and " ++
        (project_strings.getLast?.getD "")
    else
      (project_strings.head?).getD ""
  (total_count, final_projects_str)

/-- C1: for all timesheet and scheduled hours, the availability classifier
returns `available_hours = max 0 (40 - (t + s))` (never negative), and the
label is "Fully Available" iff `available_hours ≥ 15`, "Partially Available"
iff `0 < available_hours < 15`, and "Not Available" iff
`available_hours = 0`. -/
theorem availability_classifier_spec (n : String) (t s : ℚ) :
    (get_availability_guess_coded n t s).1 = max 0 (40 - (t + s)) ∧
    0 ≤ (get_availability_guess_coded n t s).1 ∧
    ((get_availability_guess_coded n t s).2 = "Fully Available" ↔
      15 ≤ (get_availability_guess_coded n t s).1) ∧
    ((get_availability_guess_coded n t s).2 = "Partially Available" ↔
      0 < (get_availability_guess_coded n t s).1 ∧
        (get_availability_guess_coded n t s).1 < 15) ∧
    ((get_availability_guess_coded n t s).2 = "Not Available" ↔
      (get_availability_guess_coded n t s).1 = 0) := by
  simp only [get_availability_guess_coded]
  rcases lt_or_le (40 - (t + s)) 0 with h0 | h0
  · rw [if_pos h0, max_eq_left h0.le]
    norm_num
    exact ⟨by decide, by decide⟩
  · rw [if_neg (not_lt.mpr h0), max_eq_right h0]
    rcases le_or_lt 15 (40 - (t + s)) with h15 | h15
    · rw [if_pos h15]
      refine ⟨rfl, h0, ⟨fun _ => h15, fun _ => rfl⟩, ?_, ?_⟩
      · exact ⟨fun h => absurd h (by decide), fun h => absurd h15 (by linarith [h.2])⟩
      · refine ⟨fun h => absurd h (by decide), fun h => ?_⟩
        rw [h] at h15
        exact absurd h15 (by norm_num)
    · rw [if_neg (not_le.mpr h15)]
      rcases lt_or_le 0 (40 - (t + s)) with hpos | hz
      · rw [if_pos hpos]
        refine ⟨rfl, h0, ?_, ⟨fun _ => ⟨hpos, h15⟩, fun _ => rfl⟩, ?_⟩
        · exact ⟨fun h => absurd h (by decide), fun h => absurd h15 (by linarith)⟩
        · refine ⟨fun h => absurd h (by decide), fun h => ?_⟩
          rw [h] at hpos
          exact absurd hpos (by norm_num)
      · rw [if_neg (not_lt.mpr hz)]
        have hz0 : (40 : ℚ) - (t + s) = 0 := le_antisymm hz h0
        refine ⟨rfl, h0, ?_, ?_, ⟨fun _ => hz0, fun _ => rfl⟩⟩
        · refine ⟨fun h => absurd h (by decide), fun h => ?_⟩
          rw [hz0] at h
          exact absurd h (by norm_num)
        · refine ⟨fun h => absurd h (by decide), fun h => ?_⟩
          rw [hz0] at h
          exact absurd h.1 (by norm_num)

/-- C10: the availability classifier ignores the designer-name argument:
two calls with the same hour inputs and different names agree exactly. -/
theorem availability_independent_of_name (n1 n2 : String) (t s : ℚ) :
    get_availability_guess_coded n1 t s = get_availability_guess_coded n2 t s :=
  rfl

/-- C3: for every date, the window resolver returns `(start, end)` with
`start ≤ today`, `today - start < 7`, `start`'s weekday the first work-week
day (Sunday, Python weekday 6) and `end = start + 5`; when today is already
that first day, `start = today`. -/
theorem sunday_friday_range_spec (today : ℤ) :
    (get_sunday_friday_range today).1 ≤ today ∧
    today - (get_sunday_friday_range today).1 < 7 ∧
    weekday (get_sunday_friday_range today).1 = 6 ∧
    (get_sunday_friday_range today).2 = (get_sunday_friday_range today).1 + 5 ∧
    (weekday today = 6 → (get_sunday_friday_range today).1 = today) := by
  unfold get_sunday_friday_range weekday
  dsimp only
  split_ifs <;> omega

/-- C7 (counterexample): the claim that the slot duration derived from the
start/end timestamps is always nonnegative for arbitrary timestamps fails:
a slot starting at second 3600 and ending at second 0 yields −1 hours. -/
theorem slot_hours_neg_cex :
    slot_hours 3600 0 = -1 ∧ ¬ (0 ≤ slot_hours 3600 0) := by
  norm_num [slot_hours]

/-- C7 (amended): the slot duration added to a person's scheduled hours is
nonnegative whenever the slot's start does not exceed its end; the code
performs no clamping, so a reversed range yields a negative duration. -/
theorem slot_hours_nonneg (start_ts end_ts : ℚ) (h : start_ts ≤ end_ts) :
    0 ≤ slot_hours start_ts end_ts := by
  unfold slot_hours
  have hnum : (0 : ℚ) ≤ end_ts - start_ts := by linarith
  positivity

theorem slot_hours_nonneg_witness :
    (0 : ℚ) ≤ 3600 ∧ 0 ≤ slot_hours 0 3600 :=
  ⟨by norm_num, slot_hours_nonneg 0 3600 (by norm_num)⟩

/-- C5: the urgency filter of the "deadlines due within 7 days" listing
admits a deadline string exactly when the pie-chart bucketer places it in
the urgent bucket (same parse, same `delta_days`, same `0 ≤ δ < 7`
boundary). -/
theorem week_filter_matches_urgent_bucket (parse : String → Option ℤ)
    (now : ℤ) (d_str : String) :
    weekAdmits parse now d_str = true ↔
      bucketOf parse now d_str = some Bucket.urgent := by
  unfold weekAdmits bucketOf
  cases hp : parse d_str with
  | none => simp
  | some d =>
    simp only [Bool.and_eq_true, decide_eq_true_eq]
    constructor
    · rintro ⟨h0, h7⟩
      rw [if_neg (by omega), if_pos h7]
    · intro h
      split_ifs at h <;> first
        | exact ⟨by omega, by omega⟩
        | simp at h

/-- C4: for a parseable deadline with `delta_days = (timestamp - now).days`,
a past deadline (`delta_days < 0`) changes no bucket counter, and a non-past
deadline increments exactly one of the three counters — urgent for
`0 ≤ delta_days < 7`, soon for `7 ≤ delta_days < 14`, later for
`delta_days ≥ 14` — so bucketing is a total partition of non-past
deadlines. -/
theorem deadline_bucket_partition (parse : String → Option ℤ) (now ts : ℤ)
    (d_str : String) (ds : List String) (hp : parse d_str = some ts) :
    (deltaDays ts now < 0 →
      countBuckets parse now (d_str :: ds) = countBuckets parse now ds) ∧
    (0 ≤ deltaDays ts now → deltaDays ts now < 7 →
      countBuckets parse now (d_str :: ds) =
        ((countBuckets parse now ds).1 + 1, (countBuckets parse now ds).2.1,
          (countBuckets parse now ds).2.2)) ∧
    (7 ≤ deltaDays ts now → deltaDays ts now < 14 →
      countBuckets parse now (d_str :: ds) =
        ((countBuckets parse now ds).1, (countBuckets parse now ds).2.1 + 1,
          (countBuckets parse now ds).2.2)) ∧
    (14 ≤ deltaDays ts now →
      countBuckets parse now (d_str :: ds) =
        ((countBuckets parse now ds).1, (countBuckets parse now ds).2.1,
          (countBuckets parse now ds).2.2 + 1)) ∧
    (0 ≤ deltaDays ts now →
      ∃! b : Bucket, bucketOf parse now d_str = some b) := by
  have hb : bucketOf parse now d_str =
      (if deltaDays ts now < 0 then none
       else if deltaDays ts now < 7 then some Bucket.urgent
       else if deltaDays ts now < 14 then some Bucket.soon
       else some Bucket.later) := by
    unfold bucketOf
    rw [hp]
  have hc : countBuckets parse now (d_str :: ds) =
      (match bucketOf parse now d_str with
       | none => countBuckets parse now ds
       | some Bucket.urgent =>
          ((countBuckets parse now ds).1 + 1, (countBuckets parse now ds).2.1,
            (countBuckets parse now ds).2.2)
       | some Bucket.soon =>
          ((countBuckets parse now ds).1, (countBuckets parse now ds).2.1 + 1,
            (countBuckets parse now ds).2.2)
       | some Bucket.later =>
          ((countBuckets parse now ds).1, (countBuckets parse now ds).2.1,
            (countBuckets parse now ds).2.2 + 1)) := rfl
  rw [hb] at hc
  split_ifs at hc with h1 h2 h3
  · exact ⟨fun _ => hc, fun ha => absurd h1 (by omega),
      fun ha _ => absurd h1 (by omega), fun ha => absurd h1 (by omega),
      fun ha => absurd h1 (by omega)⟩
  · refine ⟨fun ha => absurd ha (by omega), fun _ _ => hc,
      fun ha _ => absurd ha (by omega), fun ha => absurd ha (by omega),
      fun _ => ⟨Bucket.urgent, ?_, fun b hb2 => ?_⟩⟩
    · rw [hb, if_neg h1, if_pos h2]
    · rw [hb, if_neg h1, if_pos h2] at hb2
      exact (Option.some.inj hb2).symm
  · refine ⟨fun ha => absurd ha (by omega), fun _ hc7 => absurd hc7 (by omega),
      fun _ _ => hc, fun ha => absurd ha (by omega),
      fun _ => ⟨Bucket.soon, ?_, fun b hb2 => ?_⟩⟩
    · rw [hb, if_neg h1, if_neg h2, if_pos h3]
    · rw [hb, if_neg h1, if_neg h2, if_pos h3] at hb2
      exact (Option.some.inj hb2).symm
  · refine ⟨fun ha => absurd ha (by omega), fun _ hc7 => absurd hc7 (by omega),
      fun _ hc14 => absurd hc14 (by omega), fun _ => hc,
      fun _ => ⟨Bucket.later, ?_, fun b hb2 => ?_⟩⟩
    · rw [hb, if_neg h1, if_neg h2, if_neg h3]
    · rw [hb, if_neg h1, if_neg h2, if_neg h3] at hb2
      exact (Option.some.inj hb2).symm

theorem deadline_bucket_partition_witness :
    ((fun s => if s = "2026-10-15" then some ((3 : ℤ) * 86400) else none)
        "2026-10-15" = some ((3 : ℤ) * 86400)) ∧
    countBuckets
        (fun s => if s = "2026-10-15" then some ((3 : ℤ) * 86400) else none)
        0 ["2026-10-15"] =
      ((countBuckets
          (fun s => if s = "2026-10-15" then some ((3 : ℤ) * 86400) else none)
          0 []).1 + 1,
        (countBuckets
          (fun s => if s = "2026-10-15" then some ((3 : ℤ) * 86400) else none)
          0 []).2.1,
        (countBuckets
          (fun s => if s = "2026-10-15" then some ((3 : ℤ) * 86400) else none)
          0 []).2.2) := by
  refine ⟨rfl, ?_⟩
  exact (deadline_bucket_partition
    (fun s => if s = "2026-10-15" then some ((3 : ℤ) * 86400) else none)
    0 (3 * 86400) "2026-10-15" [] rfl).2.1 (by decide) (by decide)

/-- C8: a deadline string that fails to parse never aborts the run: the
storage derivation keeps the raw string representation as the deadline,
and the bucketing computation skips it, leaving every counter unchanged. -/
theorem unparseable_deadline_fallback (parse : String → Option ℤ)
    (fmt : ℤ → String) (now : ℤ) (raw_date : String) (ds : List String)
    (h : parse raw_date = none) :
    task_due_string parse fmt raw_date = raw_date ∧
    countBuckets parse now (raw_date :: ds) = countBuckets parse now ds := by
  constructor
  · unfold task_due_string
    rw [h]
  · have : bucketOf parse now raw_date = none := by
      unfold bucketOf
      rw [h]
    show (match bucketOf parse now raw_date with
       | none => countBuckets parse now ds
       | some Bucket.urgent => _
       | some Bucket.soon => _
       | some Bucket.later => _) = countBuckets parse now ds
    rw [this]

theorem unparseable_deadline_fallback_witness :
    task_due_string (fun _ => none) (fun _ => "") "not-a-date" = "not-a-date" ∧
    countBuckets (fun _ => none) 0 ["not-a-date"] =
      countBuckets (fun _ => none) 0 [] :=
  unparseable_deadline_fallback (fun _ => none) (fun _ => "") 0 "not-a-date"
    [] rfl

theorem sumCounts_bumpProj (m : List (String × ℕ)) (proj : String) (cnt : ℕ) :
    sumCounts (bumpProj m proj cnt) = sumCounts m + cnt := by
  induction m with
  | nil => simp [bumpProj, sumCounts]
  | cons hd tl ih =>
    obtain ⟨p, c⟩ := hd
    by_cases hp : p = proj
    · simp [bumpProj, hp, sumCounts]
      ring
    · simp [bumpProj, hp, sumCounts] at ih ⊢
      omega

theorem sumAgg_bumpCat (agg : Aggregated) (cat proj : String) (cnt : ℕ) :
    sumAgg (bumpCat agg cat proj cnt) = sumAgg agg + cnt := by
  induction agg with
  | nil => simp [bumpCat, sumAgg, sumCounts]
  | cons hd tl ih =>
    obtain ⟨k, m⟩ := hd
    by_cases hk : k = cat
    · simp [bumpCat, hk, sumAgg, sumCounts_bumpProj]
      have := sumCounts_bumpProj m proj cnt
      simp [sumAgg] at this ⊢
      omega
    · simp [bumpCat, hk, sumAgg] at ih ⊢
      omega

theorem sumAgg_aggTypes (agg : Aggregated) (proj : String)
    (ts : List (String × ℕ)) :
    sumAgg (aggTypes agg proj ts) = sumAgg agg + sumCounts ts := by
  induction ts generalizing agg with
  | nil => simp [aggTypes, sumCounts]
  | cons hd tl ih =>
    obtain ⟨ty, c⟩ := hd
    rw [aggTypes, ih, sumAgg_bumpCat]
    simp [sumCounts]
    omega

theorem sumAgg_aggProjects (agg : Aggregated) (pb : PersonBreakdown) :
    sumAgg (aggProjects agg pb) = sumAgg agg + sumPerson pb := by
  induction pb generalizing agg with
  | nil => simp [aggProjects, sumPerson]
  | cons hd tl ih =>
    obtain ⟨proj, ts⟩ := hd
    rw [aggProjects, ih, sumAgg_aggTypes]
    simp [sumPerson]
    omega

theorem sumAgg_aggAll (agg : Aggregated) (input : List (ℕ × PersonBreakdown)) :
    sumAgg (aggAll agg input) = sumAgg agg + sumInput input := by
  induction input generalizing agg with
  | nil => simp [aggAll, sumInput]
  | cons hd tl ih =>
    obtain ⟨i, pb⟩ := hd
    rw [aggAll, ih, sumAgg_aggProjects]
    simp [sumInput]
    omega

/-- C2: conservation law of the cross-person aggregator — for every
per-person project-breakdown input, the sum of all counts of the aggregated
breakdown equals the sum of all counts of the input. -/
theorem aggregate_breakdowns_conservation (input : List (ℕ × PersonBreakdown)) :
    sumAgg (aggregate_project_breakdowns input) = sumInput input := by
  rw [aggregate_project_breakdowns, sumAgg_aggAll]
  simp [sumAgg]

theorem flattenDeadlines_go_length (dd : ℕ → List String) (ids : List ℕ)
    (acc : List String) :
    (ids.foldl (fun a i => a ++ dd i) acc).length =
      acc.length + (ids.map (fun j => (dd j).length)).sum := by
  induction ids generalizing acc with
  | nil => simp
  | cons hd tl ih =>
    rw [List.foldl_cons, ih]
    simp
    omega

theorem insertDedup_nodup (s : List String) (x : String) (hs : s.Nodup) :
    (insertDedup s x).Nodup := by
  unfold insertDedup
  split_ifs with hm
  · exact hs
  · simpa using List.Nodup.append hs (List.nodup_singleton x)
      (by simpa using hm)

theorem buildDeadlines_go_nodup (pairs : List (ℕ × String))
    (f : ℕ → List String) (hf : ∀ j, (f j).Nodup) (i : ℕ) :
    ((pairs.foldl
        (fun f p => fun i => if i = p.1 then insertDedup (f i) p.2 else f i)
        f) i).Nodup := by
  induction pairs generalizing f with
  | nil => exact hf i
  | cons hd tl ih =>
    rw [List.foldl_cons]
    refine ih _ fun j => ?_
    by_cases hj : j = hd.1
    · simpa [hj] using insertDedup_nodup (f hd.1) hd.2 (hf hd.1)
    · simpa [hj] using hf j

/-- C9: flattening every person's deadline set into the aggregated deadline
collection preserves duplicates across people — the flat collection's length
is the sum of the per-person set sizes — while each person's own deadline
collection is duplicate-free because it was built as a set. -/
theorem deadline_merge_spec (ids : List ℕ) (pairs : List (ℕ × String))
    (i : ℕ) :
    (flattenDeadlines ids (buildDeadlines pairs)).length =
      (ids.map (fun j => (buildDeadlines pairs j).length)).sum ∧
    (buildDeadlines pairs i).Nodup := by
  constructor
  · rw [flattenDeadlines, flattenDeadlines_go_length]
    simp
  · exact buildDeadlines_go_nodup pairs (fun _ => []) (fun _ => List.nodup_nil) i

/-- C6: the formatter returns the total of all counts plus a summary in
which a project mapped exactly to `{"No Type": 1}` renders as the bare
project name, any other project renders as
`"Name (N CatA, M CatB, ...)"`, two or more pieces are joined by commas
with a single " and " before the last piece, and the empty mapping yields
`(0, "")` — including the spec's two round-trip examples. -/
theorem format_breakdown_spec (bd : PersonBreakdown) (p : String)
    (ts : List (String × ℕ)) :
    (format_project_breakdown_for_employee bd).1 = sumPerson bd ∧
    format_project_breakdown_for_employee [] = (0, "") ∧
    format_project_breakdown_for_employee [("Alpha", [("No Type", 1)])] =
      (1, "Alpha") ∧
    format_project_breakdown_for_employee
        [("Alpha", [("No Type", 1)]), ("Beta", [("Design", 2)])] =
      (3, "Alpha and Beta (2 Design)") ∧
    projectString p [("No Type", 1)] = p ∧
    (ts ≠ [("No Type", 1)] →
      projectString p ts =
        p ++ " (" ++ String.intercalate ", "
          (ts.map (fun tc => toString tc.2 ++ " " ++ tc.1)) ++ ")") ∧
    (2 ≤ bd.length →
      (format_project_breakdown_for_employee bd).2 =
        String.intercalate ", "
            ((bd.map (fun pr => projectString pr.1 pr.2)).dropLast) ++
          " and " ++
          ((bd.map (fun pr => projectString pr.1 pr.2)).getLast?.getD "")) := by
  refine ⟨rfl, rfl, by decide, by decide, by simp [projectString], ?_, ?_⟩
  · intro hne
    rw [projectString, if_neg]
    rintro ⟨h1, h2, h3⟩
    cases ts with
    | nil => simp at h1
    | cons hd tl =>
      cases tl with
      | nil =>
        obtain ⟨a, b⟩ := hd
        simp at h2 h3
        exact hne (by simp [h2, h3])
      | cons hd2 tl2 => simp at h1
  · intro hlen
    show (if (bd.map (fun pr => projectString pr.1 pr.2)).length > 1
        then _ else _) = _
    rw [if_pos (by simpa using hlen)]
